import Mathlib

/-
Verification of the allocation core (layout calculus, allocator capability
defaults, growable buffer, bump allocator) against its specification.

The definitions below are shallow embeddings of the Rust source:
machine integers are modelled as `Nat` (with explicit `% 2^bits` where the
source wraps, and `Option` where the source uses checked arithmetic or can
panic), pointers are modelled as natural-number addresses, and the 4-byte
signed headers of the bump allocator are modelled as `Int`.
-/

/-- Category for a memory record: byte size plus required alignment
(`struct Kind` in alloc.rs). -/
structure Kind where
  size : Nat
  align : Nat
deriving DecidableEq

/-- Amount of padding to insert after `k` so that the following address
satisfies `a` (`Kind::pad_to` in alloc.rs).  The source computes
`len_rounded_up = (len + align - 1) & !(align - 1)`, which for a
power-of-two `align` equals the arithmetic form used here: subtracting
`x % align` from `x` clears exactly the bits masked by `!(align - 1)`. -/
def Kind.pad_to (k : Kind) (a : Nat) : Nat :=
  let len := k.size
  let len_rounded_up := (len + a - 1) - (len + a - 1) % a
  len_rounded_up - len

/-- Concatenation of `k` then `next` with padding so `next` is aligned;
returns the composed kind and the offset of `next`
(`Kind::extend` in alloc.rs). -/
def Kind.extend (k next : Kind) : Kind × Nat :=
  let new_align := max k.align next.align
  let realigned : Kind := ⟨k.size, new_align⟩
  let pad := realigned.pad_to new_align
  let offset := k.size + pad
  let new_size := offset + next.size
  (⟨new_size, new_align⟩, offset)

/-- Record for `n` instances of `k`, each padded to its own alignment
(`Kind::array` in alloc.rs). -/
def Kind.array (k : Kind) (n : Nat) : Kind :=
  let padded_size := k.size + k.pad_to k.align
  ⟨padded_size * n, k.align⟩

/-- The alignment values the layout calculus is specified for. -/
def isPow2 (n : Nat) : Prop := ∃ k, n = 2 ^ k

/-- States that `v` is the least multiple of `g` that is at least `s`. -/
def leastMultipleGE (g s v : Nat) : Prop :=
  s ≤ v ∧ g ∣ v ∧ ∀ m, s ≤ m → g ∣ m → v ≤ m

/-- States that `v` is the least multiple of `g` strictly greater than `s`. -/
def leastMultipleGT (g s v : Nat) : Prop :=
  s < v ∧ g ∣ v ∧ ∀ m, s < m → g ∣ m → v ≤ m

/-
Allocator capability and its derived default operations (alloc.rs).
An allocator implementation is a pair of state-passing primitives; a
returned address of `0` models the null failure sentinel.
-/

/-- An allocator implementation: the two mandatory primitives of the
`Alloc` trait, as state-passing functions.  `alloc` returns the new
allocator state and an address (`0` = null failure sentinel). -/
structure AllocOps (σ : Type) where
  alloc : σ → Kind → σ × Nat
  dealloc : σ → Nat → Kind → σ

/-- Default `usable_size` of the capability (alloc.rs line 199): reports
exactly `kind.size`. -/
def usable_size (k : Kind) : Nat := k.size

/-- Observable memory actions performed by a derived operation, in order:
a byte copy of `n` bytes from `src` to `dst`, or a deallocation. -/
inductive AllocEvent
  | copy (src dst n : Nat)
  | dealloc (p : Nat) (k : Kind)
deriving DecidableEq

/-- Default `realloc` of the capability (`SuperAlloc::realloc` in
alloc.rs lines 221-232): in place if `new_size` fits in the usable size,
otherwise allocate `new_size` at the old alignment, copy
`min(kind.size, new_size)` bytes, free the old region; on allocation
failure return null without freeing.  Returns the allocator state, the
resulting address, and the list of memory actions performed. -/
def superRealloc {σ : Type} (A : AllocOps σ) (s : σ) (ptr : Nat)
    (kind : Kind) (new_size : Nat) : σ × Nat × List AllocEvent :=
  if new_size ≤ usable_size kind then (s, ptr, [])
  else
    let r := A.alloc s ⟨new_size, kind.align⟩
    if r.2 ≠ 0 then
      (A.dealloc r.1 ptr kind, r.2,
        [AllocEvent.copy ptr r.2 (min kind.size new_size),
         AllocEvent.dealloc ptr kind])
    else (r.1, 0, [])

/-
Machine-word arithmetic for the growable buffer (raw_vec.rs), modelled
over a word size of `bits` bits.
-/

/-- Largest `usize` value on a `bits`-bit platform. -/
def usizeMax (bits : Nat) : Nat := 2 ^ bits - 1

/-- Largest `isize` value on a `bits`-bit platform. -/
def isizeMax (bits : Nat) : Nat := 2 ^ (bits - 1) - 1

/-- Wrapping subtraction of `usize` values (`usize::wrapping_sub`),
assuming `a b < 2^bits`. -/
def wrappingSub (bits a b : Nat) : Nat := (a + 2 ^ bits - b) % 2 ^ bits

/-- Checked addition of `usize` values (`usize::checked_add`). -/
def checkedAdd (bits a b : Nat) : Option Nat :=
  if a + b < 2 ^ bits then some (a + b) else none

/-- Checked multiplication of `usize` values (`usize::checked_mul`). -/
def checkedMul (bits a b : Nat) : Option Nat :=
  if a * b < 2 ^ bits then some (a * b) else none

/-- Overflow guard of the growable buffer (raw_vec.rs lines 261-266):
asserts `alloc_size <= isize::MAX` only when the platform word is
narrower than 64 bits; returns `true` when the guard passes. -/
def alloc_guard (bits alloc_size : Nat) : Bool :=
  if bits < 64 then decide (alloc_size ≤ isizeMax bits) else true

/-
Growable buffer (RawVec in raw_vec.rs).  The address is abstracted to a
provenance tag (designated empty sentinel vs. allocator-provided), and
the model additionally records the byte size of the layout most recently
handed to the allocator for the current address.  The allocator is
abstracted by two oracles answering whether an allocation / reallocation
request returns non-null.
-/

/-- Provenance of the buffer's address: the designated `EMPTY` sentinel
or a real allocation. -/
inductive PtrTag
  | sentinel
  | real
deriving DecidableEq

/-- Growable buffer state: the `cap` field, the address provenance, and
the byte size of the layout most recently given to the allocator for the
current address (`0` for the sentinel). -/
structure RVState where
  cap : Nat
  tag : PtrTag
  lastSize : Nat
deriving DecidableEq

/-- Outcome of a growable-buffer operation: a new state together with
whether the allocator was invoked (`calledAlloc`), a panic before any
allocator call (capacity overflow or assertion failure), or a fatal
out-of-memory abort after a null allocator reply. -/
inductive RVOut
  | ok (st : RVState) (calledAlloc : Bool)
  | capFail
  | oomFail
deriving DecidableEq

/-- Reported capacity (`RawVec::cap` in raw_vec.rs lines 83-85):
`usize::MAX` for zero-sized elements, otherwise the `cap` field. -/
def rvCap (bits es : Nat) (st : RVState) : Nat :=
  if es = 0 then usizeMax bits else st.cap

/-- `RawVec::with_capacity_alloc` (raw_vec.rs lines 41-59) for element
kind `ek`: checked multiply, overflow guard, then either the sentinel
(when the byte size is zero) or one allocation of `ek.array cap`. -/
def RawVec.with_capacity (bits : Nat) (ek : Kind) (allocF : Kind → Bool)
    (cap : Nat) : RVOut :=
  match checkedMul bits cap ek.size with
  | none => RVOut.capFail
  | some alloc_size =>
    if alloc_guard bits alloc_size then
      if alloc_size = 0 then RVOut.ok ⟨cap, PtrTag.sentinel, 0⟩ false
      else if allocF (ek.array cap) then
        RVOut.ok ⟨cap, PtrTag.real, (ek.array cap).size⟩ true
      else RVOut.oomFail
    else RVOut.capFail

/-- `RawVec::double` (raw_vec.rs lines 89-120).  The `2 * cap` and
`new_cap * elem_size` multiplications are unchecked in the source and so
are modelled with explicit wrapping. -/
def RawVec.double (bits : Nat) (ek : Kind) (allocF : Kind → Bool)
    (reallocF : Kind → Nat → Bool) (st : RVState) : RVOut :=
  if ek.size = 0 then RVOut.capFail
  else if st.cap = 0 then
    let new_cap := if usizeMax bits / 8 < ek.size then 1 else 4
    if allocF (ek.array new_cap) then
      RVOut.ok ⟨new_cap, PtrTag.real, (ek.array new_cap).size⟩ true
    else RVOut.oomFail
  else
    let new_cap := 2 * st.cap % 2 ^ bits
    let new_alloc_size := new_cap * ek.size % 2 ^ bits
    if alloc_guard bits new_alloc_size then
      if reallocF (ek.array st.cap) new_alloc_size then
        RVOut.ok ⟨new_cap, PtrTag.real, new_alloc_size⟩ true
      else RVOut.oomFail
    else RVOut.capFail

/-- `RawVec::reserve_exact` (raw_vec.rs lines 122-154). -/
def RawVec.reserve_exact (bits : Nat) (ek : Kind) (allocF : Kind → Bool)
    (reallocF : Kind → Nat → Bool) (st : RVState)
    (used_cap needed_extra_cap : Nat) : RVOut :=
  if needed_extra_cap ≤ wrappingSub bits (rvCap bits ek.size st) used_cap then
    RVOut.ok st false
  else
    match checkedAdd bits used_cap needed_extra_cap with
    | none => RVOut.capFail
    | some new_cap =>
      match checkedMul bits new_cap ek.size with
      | none => RVOut.capFail
      | some new_alloc_size =>
        if alloc_guard bits new_alloc_size then
          if st.cap = 0 then
            if allocF (ek.array new_cap) then
              RVOut.ok ⟨new_cap, PtrTag.real, (ek.array new_cap).size⟩ true
            else RVOut.oomFail
          else
            if reallocF (ek.array st.cap) new_alloc_size then
              RVOut.ok ⟨new_cap, PtrTag.real, new_alloc_size⟩ true
            else RVOut.oomFail
        else RVOut.capFail

/-- `RawVec::reserve` (raw_vec.rs lines 156-191): like `reserve_exact`
but over-provisioning to `2 * (used_cap + needed_extra_cap)`. -/
def RawVec.reserve (bits : Nat) (ek : Kind) (allocF : Kind → Bool)
    (reallocF : Kind → Nat → Bool) (st : RVState)
    (used_cap needed_extra_cap : Nat) : RVOut :=
  if needed_extra_cap ≤ wrappingSub bits (rvCap bits ek.size st) used_cap then
    RVOut.ok st false
  else
    match checkedAdd bits used_cap needed_extra_cap with
    | none => RVOut.capFail
    | some c =>
      match checkedMul bits c 2 with
      | none => RVOut.capFail
      | some new_cap =>
        match checkedMul bits new_cap ek.size with
        | none => RVOut.capFail
        | some new_alloc_size =>
          if alloc_guard bits new_alloc_size then
            if st.cap = 0 then
              if allocF (ek.array new_cap) then
                RVOut.ok ⟨new_cap, PtrTag.real, (ek.array new_cap).size⟩ true
              else RVOut.oomFail
            else
              if reallocF (ek.array st.cap) new_alloc_size then
                RVOut.ok ⟨new_cap, PtrTag.real, new_alloc_size⟩ true
              else RVOut.oomFail
          else RVOut.capFail

/-- `RawVec::shrink_to_fit` (raw_vec.rs lines 193-221).  The
`amount * elem_size` multiplication is unchecked in the source (the
vector is already at least this large) and is modelled with wrapping. -/
def RawVec.shrink_to_fit (bits : Nat) (ek : Kind)
    (reallocF : Kind → Nat → Bool) (st : RVState) (amount : Nat) : RVOut :=
  if ek.size = 0 then RVOut.ok ⟨amount, st.tag, st.lastSize⟩ false
  else if st.cap < amount then RVOut.capFail
  else if amount = 0 then RVOut.ok ⟨0, PtrTag.sentinel, 0⟩ false
  else if st.cap ≠ amount then
    let new_alloc_size := amount * ek.size % 2 ^ bits
    if reallocF (ek.array st.cap) new_alloc_size then
      RVOut.ok ⟨amount, PtrTag.real, new_alloc_size⟩ true
    else RVOut.oomFail
  else RVOut.ok st false

/-- The drop-flag sentinel `mem::POST_DROP_USIZE`: the 64-bit constant
of repeated `0x1d` bytes, truncated to the platform word (the standard
library defines it as `POST_DROP_U64 as usize`). -/
def POST_DROP_USIZE (bits : Nat) : Nat := 0x1d1d1d1d1d1d1d1d % 2 ^ bits

/-- Teardown of the buffer (`Drop for RawVec`, raw_vec.rs lines 237-248):
the layout passed to the single `dealloc` call, or `none` when the
deallocation is skipped — zero-sized elements, zero capacity, or a
capacity holding the `POST_DROP_USIZE` drop-flag sentinel (the third
conjunct is the source's `unsafe_no_drop_flag_needs_drop`, raw_vec.rs
lines 232-234). -/
def RawVec.dropDealloc (bits : Nat) (ek : Kind) (st : RVState) : Option Kind :=
  if ek.size ≠ 0 ∧ st.cap ≠ 0 ∧ st.cap ≠ POST_DROP_USIZE bits then
    some (ek.array st.cap)
  else none

/-- Buffer states reachable through `with_capacity`, `double`,
`reserve`, `reserve_exact` and `shrink_to_fit`. -/
inductive RVReach (bits : Nat) (ek : Kind) (allocF : Kind → Bool)
    (reallocF : Kind → Nat → Bool) : RVState → Prop
  | init (cap : Nat) (st : RVState) (b : Bool) :
      RawVec.with_capacity bits ek allocF cap = RVOut.ok st b →
      RVReach bits ek allocF reallocF st
  | step_double (st st' : RVState) (b : Bool) :
      RVReach bits ek allocF reallocF st →
      RawVec.double bits ek allocF reallocF st = RVOut.ok st' b →
      RVReach bits ek allocF reallocF st'
  | step_reserve (st st' : RVState) (u e : Nat) (b : Bool) :
      RVReach bits ek allocF reallocF st →
      RawVec.reserve bits ek allocF reallocF st u e = RVOut.ok st' b →
      RVReach bits ek allocF reallocF st'
  | step_reserve_exact (st st' : RVState) (u e : Nat) (b : Bool) :
      RVReach bits ek allocF reallocF st →
      RawVec.reserve_exact bits ek allocF reallocF st u e = RVOut.ok st' b →
      RVReach bits ek allocF reallocF st'
  | step_shrink (st st' : RVState) (amount : Nat) (b : Bool) :
      RVReach bits ek allocF reallocF st →
      RawVec.shrink_to_fit bits ek reallocF st amount = RVOut.ok st' b →
      RVReach bits ek allocF reallocF st'

/-
Bump allocator (tests/bump_alloc.rs): a fixed block with a shared
cursor; each arena entry carries a 4-byte signed size header right
before the next entry.  Addresses and header words are modelled as
`Int`; the size computation goes through the source's truncating
`usize -> i32` cast.
-/

/-- Fixed minimum alignment and granularity of the arena
(`MIN_ALIGN` in bump_alloc.rs). -/
def MIN_ALIGN : Nat := 16

/-- The truncating `usize as i32` cast: the low 32 bits of `n` read as
a signed two's complement value in `[-2^31, 2^31)`. -/
def as_i32 (n : Nat) : Int := ((n : Int) + 2 ^ 31) % 2 ^ 32 - 2 ^ 31

/-- `roundup_size` of bump_alloc.rs lines 79-81, on `i32` values.  The
source computes `size + 16 & !15`, which by Rust precedence is
`(size + 16) & !15`: the addition wraps on `i32` overflow and the mask
clears the low four bits of the two's complement representation, i.e.
subtracts the value's nonnegative remainder modulo 16. -/
def roundup_size (size : Int) : Int :=
  let t := (size + 16 + 2 ^ 31) % 2 ^ 32 - 2 ^ 31
  t - t % 16

/-- Specification-side round-up on untruncated naturals: `roundup_size`
composed with the `i32` cast agrees with it exactly when `s + 16` fits
in `i32` (`roundup_size_small` below). -/
def roundup16 (s : Nat) : Nat := (s + 16) - (s + 16) % 16

/-- Bump-allocator state: block start, block limit, shared cursor, and
the arena memory, read as a 4-byte signed integer per byte address. -/
structure BumpState where
  block : Int
  limit : Int
  cursor : Int
  mem : Int → Int

/-- Point update of the arena memory. -/
def writeMem (m : Int → Int) (a : Int) (v : Int) : Int → Int :=
  fun x => if x = a then v else m x

/-- `Alloc::alloc` of bump_alloc.rs lines 85-101.  The entry size is
`roundup_size((kind.size() + 4) as i32)` with the truncating cast of
the source.  Returns the new state and `some p` when the request was
placed in the arena at `p`; `none` (state unchanged) when the request
was delegated to the fallback allocator.  Pointer comparison
`cursor < limit.offset(-size)` is `cursor < limit - size` over `Int`
addresses. -/
def bumpAlloc (st : BumpState) (k : Kind) : BumpState × Option Int :=
  if k.align ≤ MIN_ALIGN then
    let size := roundup_size (as_i32 (k.size + 4))
    if st.cursor < st.limit - size then
      let p := st.cursor
      let n := p + size
      ({ st with cursor := n, mem := writeMem st.mem (n - 4) size }, some p)
    else (st, none)
  else (st, none)

/-- Backward walk of `Alloc::dealloc` (bump_alloc.rs lines 118-127):
starting at `back`, skip contiguous free (non-positive header) entries
until the block start or a live entry.  `fuel` bounds the number of
iterations; the source loop does not terminate on a zero header, which
the model reports as `none`. -/
def walkBack (mem : Int → Int) (start : Int) : Nat → Int → Option Int
  | 0, _ => none
  | Nat.succ fuel, back =>
    if back = start then some back
    else
      let prev_size := mem (back - 4)
      if 0 < prev_size then some back
      else walkBack mem start fuel (back + prev_size)

/-- Outcome of a bump deallocation: an updated arena state, delegation
to the fallback allocator, or a failure of the header assertion (or a
non-terminating backward walk). -/
inductive DeallocResult
  | arena (st : BumpState)
  | delegated
  | stuck

/-- `Alloc::dealloc` of bump_alloc.rs lines 104-134: recompute the entry
size (through the same truncating `as i32` cast as `alloc`), assert the
stored header matches, then either negate the header in place (entry
not at the cursor) or rewind the cursor backwards over the trailing run
of free entries. -/
def bumpDealloc (fuel : Nat) (st : BumpState) (ptr : Int) (k : Kind) :
    DeallocResult :=
  if k.align ≤ MIN_ALIGN then
    let size := roundup_size (as_i32 (k.size + 4))
    let next := ptr + size
    if st.mem (next - 4) = size then
      if next ≠ st.cursor then
        DeallocResult.arena
          { st with mem := writeMem st.mem (next - 4) (-size) }
      else
        match walkBack st.mem st.block fuel ptr with
        | some back => DeallocResult.arena { st with cursor := back }
        | none => DeallocResult.stuck
    else DeallocResult.stuck
  else DeallocResult.delegated

/-- Invariant of a growable-buffer state for a non-zero-sized element
kind: the address is either the designated empty sentinel with capacity
0, or a real allocation whose most recent allocation/reallocation
request had byte size `cap * elem_size` (at most `isize::MAX`). -/
def RVInv (bits : Nat) (ek : Kind) (st : RVState) : Prop :=
  (st.tag = PtrTag.sentinel ∧ st.cap = 0) ∨
    (st.tag = PtrTag.real ∧ st.cap * ek.size = st.lastSize ∧
      st.lastSize ≤ isizeMax bits)

/-- Concrete allocator instance used to witness the derived-operation
theorems: a counter state, fresh non-null addresses `100, 101, ...`, and
a deallocation that bumps the counter to `s + 7`. -/
def demoAlloc : AllocOps Nat :=
  ⟨fun s _ => (s + 1, 100 + s), fun s _ _ => s + 7⟩

/-
Theorems.
-/

lemma isPow2.pos {n : Nat} (h : isPow2 n) : 0 < n := by
  obtain ⟨k, rfl⟩ := h
  exact Nat.pos_pow_of_pos k (by omega)

/-- Two distinct multiples of `a` differ by at least `a`. -/
lemma multiple_gap {a w m : Nat} (hw : a ∣ w) (hm : a ∣ m) (h : w < m) :
    w + a ≤ m := by
  have hd : a ∣ m - w := Nat.dvd_sub' hm hw
  have hpos : 0 < m - w := by omega
  have := Nat.le_of_dvd hpos hd
  omega

/-- The round-up `(s + a - 1) - (s + a - 1) % a` is the least multiple of
`a` that is at least `s`. -/
lemma roundedUp_least (a s : Nat) (ha : 0 < a) :
    leastMultipleGE a s ((s + a - 1) - (s + a - 1) % a) := by
  set q := s + a - 1 with hq
  have hmod : q % a < a := Nat.mod_lt _ ha
  have hdvd : a ∣ q - q % a := by
    have h := Nat.div_add_mod q a
    exact ⟨q / a, by omega⟩
  refine ⟨by omega, hdvd, ?_⟩
  intro m hsm hdm
  by_contra hlt
  push_neg at hlt
  have := multiple_gap hdm hdvd hlt
  omega

/-- Identify `Kind.extend`'s offset with the round-up of `k.size`. -/
lemma extend_offset_eq (k next : Kind) (h : 0 < max k.align next.align) :
    (k.extend next).2 =
      (k.size + max k.align next.align - 1) -
        (k.size + max k.align next.align - 1) % max k.align next.align := by
  have hm := Nat.mod_lt (k.size + max k.align next.align - 1) h
  simp only [Kind.extend, Kind.pad_to]
  omega

/-- C1 (amended): `Kind::extend(A, B)` returns alignment
`max(A.align, B.align)`; the offset is the smallest offset ≥ `A.size`
that is a multiple of that resulting alignment (not of `B.align` alone);
and the resulting size is that offset plus `B.size`. -/
theorem extend_align_offset_size (A B : Kind)
    (hA : isPow2 A.align) (hB : isPow2 B.align) :
    (A.extend B).1.align = max A.align B.align ∧
    leastMultipleGE (max A.align B.align) A.size (A.extend B).2 ∧
    (A.extend B).1.size = (A.extend B).2 + B.size := by
  have hpos : 0 < max A.align B.align :=
    lt_max_of_lt_left hA.pos
  refine ⟨rfl, ?_, rfl⟩
  rw [extend_offset_eq _ _ hpos]
  exact roundedUp_least _ _ hpos

/-- Witness for C1's amended theorem at `A = ⟨3, 2⟩`, `B = ⟨5, 4⟩`. -/
theorem extend_align_offset_size_witness :
    (Kind.extend ⟨3, 2⟩ ⟨5, 4⟩).1.align = max 2 4 ∧
    leastMultipleGE (max 2 4) 3 (Kind.extend ⟨3, 2⟩ ⟨5, 4⟩).2 ∧
    (Kind.extend ⟨3, 2⟩ ⟨5, 4⟩).1.size = (Kind.extend ⟨3, 2⟩ ⟨5, 4⟩).2 + 5 :=
  extend_align_offset_size ⟨3, 2⟩ ⟨5, 4⟩ ⟨1, rfl⟩ ⟨2, rfl⟩

/-- C1 counterexample: for `A = ⟨1, 8⟩`, `B = ⟨1, 1⟩` (both alignments
powers of two) the offset computed by `Kind::extend` is `8`, which is not
the smallest offset ≥ `A.size` satisfying `B`'s alignment: offset `1` is
`B`-aligned and smaller. -/
theorem extend_offset_not_B_aligned_min :
    (Kind.extend ⟨1, 8⟩ ⟨1, 1⟩).2 = 8 ∧
    ¬ leastMultipleGE 1 1 (Kind.extend ⟨1, 8⟩ ⟨1, 1⟩).2 := by
  refine ⟨rfl, ?_⟩
  intro h
  have h8 : (Kind.extend ⟨1, 8⟩ ⟨1, 1⟩).2 = 8 := rfl
  rw [h8] at h
  have := h.2.2 1 le_rfl ⟨1, rfl⟩
  omega

/-- C2: the default `reallocate` built on `alloc`/`dealloc` with the
default `usable_size` (= `layout.size`): when `new_size` fits in the
usable size it returns the same address unchanged with no memory action
(in place, never shrinking); otherwise it allocates `new_size` bytes at
the old alignment and, on success, copies `min(old.size, new_size)`
bytes and then frees the old region; when the fresh allocation returns
the null sentinel it returns null and performs no deallocation, leaving
the old region valid. -/
theorem realloc_default_behavior {σ : Type} (A : AllocOps σ) (s : σ)
    (ptr : Nat) (kind : Kind) (new_size : Nat) :
    (new_size ≤ usable_size kind →
      superRealloc A s ptr kind new_size = (s, ptr, [])) ∧
    (usable_size kind < new_size →
      ((A.alloc s ⟨new_size, kind.align⟩).2 ≠ 0 →
        superRealloc A s ptr kind new_size =
          (A.dealloc (A.alloc s ⟨new_size, kind.align⟩).1 ptr kind,
           (A.alloc s ⟨new_size, kind.align⟩).2,
           [AllocEvent.copy ptr (A.alloc s ⟨new_size, kind.align⟩).2
              (min kind.size new_size),
            AllocEvent.dealloc ptr kind])) ∧
      ((A.alloc s ⟨new_size, kind.align⟩).2 = 0 →
        superRealloc A s ptr kind new_size =
          ((A.alloc s ⟨new_size, kind.align⟩).1, 0, []))) := by
  refine ⟨fun hle => ?_, fun hgt => ⟨fun hnz => ?_, fun hz => ?_⟩⟩
  · simp [superRealloc, hle]
  · simp [superRealloc, Nat.not_le.mpr hgt, hnz]
  · simp [superRealloc, Nat.not_le.mpr hgt, hz]

/-- Witness for C2's theorem: growing a region of layout `⟨8, 1⟩` to 20
bytes through `demoAlloc` moves to the fresh address 100, copies 8 bytes
and frees the old region. -/
theorem realloc_default_behavior_witness :
    superRealloc demoAlloc 0 5 ⟨8, 1⟩ 20 =
      (8, 100, [AllocEvent.copy 5 100 8, AllocEvent.dealloc 5 ⟨8, 1⟩]) := by
  have h := ((realloc_default_behavior demoAlloc 0 5 ⟨8, 1⟩ 20).2
    (by decide)).1 (by decide)
  simpa using h

/-- C5 counterexample: on a 64-bit word the overflow guard does not
fire at all: `alloc_guard` passes a byte size one past `isize::MAX`
instead of aborting before the allocator is reached. -/
theorem alloc_guard_noop_on_64bit :
    isizeMax 64 < isizeMax 64 + 1 ∧
    alloc_guard 64 (isizeMax 64 + 1) = true := by
  exact ⟨by omega, by decide⟩

/-- C5 (amended): on platforms whose word is narrower than 64 bits, a
requested byte size exceeding `isize::MAX` makes `alloc_guard` fail, and
`RawVec::reserve` aborts with a capacity-overflow failure without
consulting the allocator (the outcome is `capFail` for every allocator
oracle); on 64-bit words the guard is a deliberate no-op. -/
theorem alloc_guard_narrow_word (bits alloc_size : Nat) (hb : bits < 64)
    (hover : isizeMax bits < alloc_size) :
    alloc_guard bits alloc_size = false ∧
    ∀ (ek : Kind) (allocF : Kind → Bool) (reallocF : Kind → Nat → Bool)
      (st : RVState) (used extra c new_cap : Nat),
      checkedAdd bits used extra = some c →
      checkedMul bits c 2 = some new_cap →
      checkedMul bits new_cap ek.size = some alloc_size →
      ¬ extra ≤ wrappingSub bits (rvCap bits ek.size st) used →
      RawVec.reserve bits ek allocF reallocF st used extra =
        RVOut.capFail := by
  have hguard : alloc_guard bits alloc_size = false := by
    simp only [alloc_guard, if_pos hb]
    exact decide_eq_false (by omega)
  refine ⟨hguard, ?_⟩
  intro ek allocF reallocF st used extra c new_cap hadd hmul2 hmulsz hne
  simp [RawVec.reserve, hne, hadd, hmul2, hmulsz, hguard]

/-- Witness for C5's amended theorem: on a 32-bit word,
`reserve(0, 2^30)` computes the byte size `2^31 > isize::MAX` and aborts
with a capacity overflow without invoking the allocator. -/
theorem alloc_guard_narrow_word_witness :
    alloc_guard 32 (2 ^ 31) = false ∧
    RawVec.reserve 32 ⟨1, 1⟩ (fun _ => true) (fun _ _ => true)
      ⟨0, PtrTag.sentinel, 0⟩ 0 (2 ^ 30) = RVOut.capFail := by
  have h := alloc_guard_narrow_word 32 (2 ^ 31) (by decide) (by decide)
  exact ⟨h.1, h.2 ⟨1, 1⟩ (fun _ => true) (fun _ _ => true)
    ⟨0, PtrTag.sentinel, 0⟩ 0 (2 ^ 30) (2 ^ 30) (2 ^ 31)
    (by decide) (by decide) (by decide) (by decide)⟩

lemma wrappingSub_of_le {bits a b : Nat} (h : b ≤ a) (ha : a < 2 ^ bits) :
    wrappingSub bits a b = a - b := by
  unfold wrappingSub
  have he : a + 2 ^ bits - b = (a - b) + 2 ^ bits := by omega
  rw [he, Nat.add_mod_right, Nat.mod_eq_of_lt (by omega)]

lemma checkedAdd_some {bits a b c : Nat} (h : checkedAdd bits a b = some c) :
    c = a + b ∧ a + b < 2 ^ bits := by
  unfold checkedAdd at h
  by_cases hlt : a + b < 2 ^ bits
  · rw [if_pos hlt] at h
    exact ⟨(Option.some.inj h).symm, hlt⟩
  · rw [if_neg hlt] at h
    cases h

lemma checkedMul_some {bits a b c : Nat} (h : checkedMul bits a b = some c) :
    c = a * b ∧ a * b < 2 ^ bits := by
  unfold checkedMul at h
  by_cases hlt : a * b < 2 ^ bits
  · rw [if_pos hlt] at h
    exact ⟨(Option.some.inj h).symm, hlt⟩
  · rw [if_neg hlt] at h
    cases h

lemma alloc_guard_zero (bits : Nat) : alloc_guard bits 0 = true := by
  unfold alloc_guard
  split
  · simp
  · rfl

lemma rvCap_lt {bits es : Nat} {st : RVState}
    (hcap : st.cap < 2 ^ bits) : rvCap bits es st < 2 ^ bits := by
  have hp : 0 < 2 ^ bits := Nat.pos_pow_of_pos _ (by omega)
  unfold rvCap usizeMax
  split <;> omega

/-- C6 counterexample: calling `reserve(1, 0)` on a fresh buffer of
1-byte elements (capacity 0) returns with the buffer unchanged because
the `wrapping_sub` early-exit fires for `used > cap`, so the resulting
capacity 0 is smaller than `used + extra = 1`. -/
theorem reserve_bad_used_no_growth :
    RawVec.reserve 64 ⟨1, 1⟩ (fun _ => true) (fun _ _ => true)
      ⟨0, PtrTag.sentinel, 0⟩ 1 0 = RVOut.ok ⟨0, PtrTag.sentinel, 0⟩ false ∧
    rvCap 64 1 ⟨0, PtrTag.sentinel, 0⟩ < 1 + 0 := by
  constructor
  · decide
  · decide

/-- C6 (amended): for any `reserve(used, extra)` call with
`used ≤ reported capacity` (and machine-word-sized arguments), if the
call returns: the reported capacity afterwards is at least
`used + extra`; when the current capacity already covers `used + extra`
the buffer is left completely unchanged and the allocator is not
invoked; the buffer is unchanged whenever the allocator is not invoked;
and when growth does occur the new capacity field equals
`2 * (used + extra)` and never shrinks. -/
theorem reserve_capacity_growth (bits : Nat) (ek : Kind)
    (allocF : Kind → Bool) (reallocF : Kind → Nat → Bool)
    (st st' : RVState) (used extra : Nat) (b : Bool)
    (hcap : st.cap < 2 ^ bits) (hused : used < 2 ^ bits)
    (hle : used ≤ rvCap bits ek.size st)
    (hok : RawVec.reserve bits ek allocF reallocF st used extra =
      RVOut.ok st' b) :
    used + extra ≤ rvCap bits ek.size st' ∧
    (extra ≤ rvCap bits ek.size st - used → st' = st ∧ b = false) ∧
    (b = false → st' = st) ∧
    (b = true → st'.cap = 2 * (used + extra) ∧ st.cap ≤ st'.cap) := by
  have hp : 0 < 2 ^ bits := Nat.pos_pow_of_pos _ (by omega)
  have hcapR : rvCap bits ek.size st < 2 ^ bits := rvCap_lt hcap
  by_cases hearly : extra ≤ rvCap bits ek.size st - used
  · simp only [RawVec.reserve, wrappingSub_of_le hle hcapR,
      if_pos hearly] at hok
    injection hok with h1 h2
    subst h1
    refine ⟨by omega, fun _ => ⟨rfl, h2.symm⟩, fun _ => rfl, fun hb => ?_⟩
    rw [← h2] at hb
    cases hb
  · simp only [RawVec.reserve, wrappingSub_of_le hle hcapR,
      if_neg hearly] at hok
    split at hok
    · cases hok
    next c hc =>
      obtain ⟨rfl, hcb⟩ := checkedAdd_some hc
      split at hok
      · cases hok
      next new_cap hnc =>
        obtain ⟨rfl, hncb⟩ := checkedMul_some hnc
        split at hok
        · cases hok
        next nas hnas =>
          obtain ⟨rfl, _⟩ := checkedMul_some hnas
          have hes : ek.size ≠ 0 := by
            intro h0
            simp only [rvCap, if_pos h0, usizeMax] at hearly
            omega
          simp only [rvCap, if_neg hes] at hle hearly ⊢
          have hlow : st.cap < used + extra := by omega
          split at hok
          · split at hok
            · split at hok
              · injection hok with h1 h2
                subst h1
                refine ⟨by dsimp only; omega,
                  fun hcon => absurd hcon (by omega),
                  fun hb => ?_,
                  fun _ => ⟨by dsimp only; omega, by dsimp only; omega⟩⟩
                rw [← h2] at hb
                cases hb
              · cases hok
            · split at hok
              · injection hok with h1 h2
                subst h1
                refine ⟨by dsimp only; omega,
                  fun hcon => absurd hcon (by omega),
                  fun hb => ?_,
                  fun _ => ⟨by dsimp only; omega, by dsimp only; omega⟩⟩
                rw [← h2] at hb
                cases hb
              · cases hok
          · cases hok

/-- Witness for C6's amended theorem: a buffer of 1-byte elements at
capacity 4 with `reserve(4, 3)` grows to capacity `2 * (4 + 3) = 14`. -/
theorem reserve_capacity_growth_witness :
    4 + 3 ≤ rvCap 64 (Kind.mk 1 1).size ⟨14, PtrTag.real, 14⟩ ∧
    (3 ≤ rvCap 64 (Kind.mk 1 1).size ⟨4, PtrTag.real, 4⟩ - 4 →
      (⟨14, PtrTag.real, 14⟩ : RVState) = ⟨4, PtrTag.real, 4⟩ ∧
        true = false) ∧
    (true = false →
      (⟨14, PtrTag.real, 14⟩ : RVState) = ⟨4, PtrTag.real, 4⟩) ∧
    (true = true →
      (RVState.mk 14 PtrTag.real 14).cap = 2 * (4 + 3) ∧
      (RVState.mk 4 PtrTag.real 4).cap ≤ (RVState.mk 14 PtrTag.real 14).cap) :=
  reserve_capacity_growth 64 ⟨1, 1⟩ (fun _ => true) (fun _ _ => true)
    ⟨4, PtrTag.real, 4⟩ ⟨14, PtrTag.real, 14⟩ 4 3 true
    (by decide) (by decide) (by decide) (by decide)

/-- C9: for every requested count `n`, `with_capacity(n)` for a
zero-byte element kind succeeds with the designated sentinel address
without invoking the allocator, and the reported capacity is the maximum
representable count `usize::MAX`. -/
theorem with_capacity_zst_no_alloc (bits : Nat) (ek : Kind)
    (allocF : Kind → Bool) (n : Nat) (hz : ek.size = 0) :
    RawVec.with_capacity bits ek allocF n =
      RVOut.ok ⟨n, PtrTag.sentinel, 0⟩ false ∧
    rvCap bits ek.size ⟨n, PtrTag.sentinel, 0⟩ = usizeMax bits := by
  have hp : 0 < 2 ^ bits := Nat.pos_pow_of_pos _ (by omega)
  constructor
  · simp [RawVec.with_capacity, checkedMul, hz, hp, alloc_guard_zero]
  · simp [rvCap, hz]

/-- Witness for C9's theorem at word size 64, element kind `⟨0, 1⟩` and
requested count 5. -/
theorem with_capacity_zst_no_alloc_witness :
    RawVec.with_capacity 64 ⟨0, 1⟩ (fun _ => false) 5 =
      RVOut.ok ⟨5, PtrTag.sentinel, 0⟩ false ∧
    rvCap 64 (Kind.mk 0 1).size ⟨5, PtrTag.sentinel, 0⟩ = usizeMax 64 :=
  with_capacity_zst_no_alloc 64 ⟨0, 1⟩ (fun _ => false) 5 rfl

/-- The specification-side round-up yields the least multiple of the
16-byte granularity strictly greater than its argument: the source's
`(size + 16) & !15` adds a full granule when `size` is already a
multiple of 16. -/
lemma roundup16_least (s : Nat) :
    leastMultipleGT MIN_ALIGN s (roundup16 s) := by
  unfold leastMultipleGT roundup16 MIN_ALIGN
  refine ⟨by omega, ⟨(s + 16) / 16, by omega⟩, ?_⟩
  intro m hgt hdm
  by_contra hlt
  push_neg at hlt
  have mg := multiple_gap hdm ⟨(s + 16) / 16, by omega⟩ hlt
  omega

/-- The `usize as i32` cast is the identity below `2^31`. -/
lemma as_i32_small {s : Nat} (h : s < 2 ^ 31) : as_i32 s = (s : Int) := by
  unfold as_i32
  rw [Int.emod_eq_of_lt (by omega) (by omega)]
  omega

/-- Below the `i32` overflow threshold the truncating round-up agrees
with the untruncated specification-side round-up. -/
lemma roundup_size_small {s : Nat} (h : s + 16 < 2 ^ 31) :
    roundup_size (as_i32 s) = ((roundup16 s : Nat) : Int) := by
  rw [as_i32_small (by omega)]
  have ht : ((s : Int) + 16 + 2 ^ 31) % 2 ^ 32 = (s : Int) + 16 + 2 ^ 31 :=
    Int.emod_eq_of_lt (by omega) (by omega)
  show ((s : Int) + 16 + 2 ^ 31) % 2 ^ 32 - 2 ^ 31 -
      (((s : Int) + 16 + 2 ^ 31) % 2 ^ 32 - 2 ^ 31) % 16 =
    ((roundup16 s : Nat) : Int)
  rw [ht]
  unfold roundup16
  omega

/-- C10: the bump allocator places a request inside the arena exactly
when the requested alignment is at most the 16-byte minimum and the
cursor plus the rounded-up entry size (the size the code computes,
through the truncating `usize as i32` cast) is strictly less than the
block limit; in particular a request whose rounded entry would exactly
fill the space up to the limit is not placed but delegated. -/
theorem bumpAlloc_placement_iff :
    (∀ (st : BumpState) (k : Kind),
      (bumpAlloc st k).2.isSome = true ↔
        k.align ≤ MIN_ALIGN ∧
          st.cursor + roundup_size (as_i32 (k.size + 4)) < st.limit) ∧
    (bumpAlloc ⟨0, 16, 0, fun _ => 0⟩ ⟨1, 1⟩).2 = none ∧
    (0 : Int) + roundup_size (as_i32 (1 + 4)) = 16 := by
  refine ⟨fun st k => ⟨fun h => ?_, fun h => ?_⟩, by decide, by decide⟩
  · by_cases halign : k.align ≤ MIN_ALIGN
    · by_cases hfit :
          st.cursor < st.limit - roundup_size (as_i32 (k.size + 4))
      · exact ⟨halign, by omega⟩
      · simp [bumpAlloc, halign, hfit] at h
    · simp [bumpAlloc, halign] at h
  · obtain ⟨halign, hlt⟩ := h
    have hfit : st.cursor < st.limit - roundup_size (as_i32 (k.size + 4)) := by
      omega
    simp [bumpAlloc, halign, hfit]

/-- C3 counterexample, two failure modes.  (1) Allocating a layout of
size 12 (alignment 1) in a fresh arena writes 32 into the header,
although the smallest multiple of 16 that is at least `12 + 4 = 16` is
16 itself: the round-up is strict, not "at least".  (2) For a layout of
size `2^32 + 8` the truncating `as i32` cast reduces the computation to
`roundup_size(12)`: the code places a 16-byte entry with header 16,
nowhere near the smallest multiple of 16 that is at least
`2^32 + 12`. -/
theorem bump_header_not_least_ge :
    ((bumpAlloc ⟨0, 4096, 0, fun _ => 0⟩ ⟨12, 1⟩).2 = some 0 ∧
      (bumpAlloc ⟨0, 4096, 0, fun _ => 0⟩ ⟨12, 1⟩).1.mem 28 = 32 ∧
      ¬ leastMultipleGE MIN_ALIGN (12 + 4) 32) ∧
    ((bumpAlloc ⟨0, 4096, 0, fun _ => 0⟩ ⟨2 ^ 32 + 8, 1⟩).2 = some 0 ∧
      (bumpAlloc ⟨0, 4096, 0, fun _ => 0⟩ ⟨2 ^ 32 + 8, 1⟩).1.mem 12 = 16 ∧
      ¬ leastMultipleGE MIN_ALIGN (2 ^ 32 + 8 + 4) 16) := by
  refine ⟨⟨by decide, by decide, ?_⟩, ⟨by decide, by decide, ?_⟩⟩
  · intro h
    have := h.2.2 16 (by omega) (by decide)
    omega
  · intro h
    have := h.1
    omega

/-- C3 (amended): for every request with alignment at most the 16-byte
minimum that the bump allocator places inside the arena, provided
`layout.size + 4 + 16` fits in a signed 32-bit integer (the source
truncates `(layout.size + 4) as i32` before rounding, so larger
requests wrap), the positive value written into the 4-byte header
immediately preceding the end of the entry equals the entry's total
rounded-up size — the smallest multiple of the 16-byte granularity
strictly greater than `layout.size + 4` (a full extra granule is added
when `layout.size + 4` is already a multiple of 16). -/
theorem bump_header_value (st : BumpState) (k : Kind) (p : Int)
    (hsmall : k.size + 4 + 16 < 2 ^ 31)
    (hplaced : (bumpAlloc st k).2 = some p) :
    (bumpAlloc st k).1.mem (p + roundup_size (as_i32 (k.size + 4)) - 4) =
      roundup_size (as_i32 (k.size + 4)) ∧
    roundup_size (as_i32 (k.size + 4)) = ((roundup16 (k.size + 4) : Nat) : Int) ∧
    0 < roundup16 (k.size + 4) ∧
    leastMultipleGT MIN_ALIGN (k.size + 4) (roundup16 (k.size + 4)) := by
  have hleast := roundup16_least (k.size + 4)
  by_cases halign : k.align ≤ MIN_ALIGN
  · by_cases hfit :
        st.cursor < st.limit - roundup_size (as_i32 (k.size + 4))
    · simp only [bumpAlloc, if_pos halign, if_pos hfit] at hplaced ⊢
      obtain rfl := Option.some.inj hplaced
      refine ⟨?_, roundup_size_small hsmall,
        by have := hleast.1; omega, hleast⟩
      simp [writeMem]
    · simp [bumpAlloc, halign, hfit] at hplaced
  · simp [bumpAlloc, halign] at hplaced

/-- Witness for C3's amended theorem: placing a 12-byte, 1-aligned
request in a fresh arena yields the header value `roundup16 16 = 32`. -/
theorem bump_header_value_witness :
    (bumpAlloc ⟨0, 4096, 0, fun _ => 0⟩ ⟨12, 1⟩).1.mem
        ((0 : Int) + roundup_size (as_i32 (12 + 4)) - 4) =
      roundup_size (as_i32 (12 + 4)) ∧
    roundup_size (as_i32 (12 + 4)) = ((roundup16 (12 + 4) : Nat) : Int) ∧
    0 < roundup16 (12 + 4) ∧
    leastMultipleGT MIN_ALIGN (12 + 4) (roundup16 (12 + 4)) :=
  bump_header_value ⟨0, 4096, 0, fun _ => 0⟩ ⟨12, 1⟩ 0 (by decide) (by decide)

/-- C7: deallocating an arena entry that is not the most recent one
(its end lies strictly before the cursor, and its entry size — as the
code computes it, through the truncating `as i32` cast — is positive)
only negates that entry's 4-byte header: the cursor, the block bounds
and every other memory word are unchanged, and a subsequent allocation
request of the same layout does not reuse the freed slot (any arena
placement lands at the cursor, past the freed entry). -/
theorem bump_dealloc_not_last (fuel : Nat) (st : BumpState) (ptr : Int)
    (k : Kind) (halign : k.align ≤ MIN_ALIGN)
    (hpos : 0 < roundup_size (as_i32 (k.size + 4)))
    (hhdr : st.mem (ptr + roundup_size (as_i32 (k.size + 4)) - 4) =
      roundup_size (as_i32 (k.size + 4)))
    (hmid : ptr + roundup_size (as_i32 (k.size + 4)) < st.cursor) :
    ∃ st2, bumpDealloc fuel st ptr k = DeallocResult.arena st2 ∧
      st2.cursor = st.cursor ∧ st2.block = st.block ∧
      st2.limit = st.limit ∧
      st2.mem (ptr + roundup_size (as_i32 (k.size + 4)) - 4) =
        -roundup_size (as_i32 (k.size + 4)) ∧
      (∀ a, a ≠ ptr + roundup_size (as_i32 (k.size + 4)) - 4 →
        st2.mem a = st.mem a) ∧
      (∀ q, (bumpAlloc st2 k).2 = some q → ptr < q) := by
  have hne : ptr + roundup_size (as_i32 (k.size + 4)) ≠ st.cursor := by omega
  simp only [bumpDealloc, if_pos halign]
  rw [if_pos hhdr, if_pos hne]
  refine ⟨_, rfl, rfl, rfl, rfl, ?_, ?_, ?_⟩
  · simp [writeMem]
  · intro a ha
    simp [writeMem, ha]
  · intro q hq
    by_cases hfit :
        st.cursor < st.limit - roundup_size (as_i32 (k.size + 4))
    · simp only [bumpAlloc, if_pos halign] at hq
      rw [if_pos hfit] at hq
      have : st.cursor = q := Option.some.inj hq
      omega
    · simp only [bumpAlloc, if_pos halign] at hq
      rw [if_neg hfit] at hq
      cases hq

/-- Witness for C7's theorem: an arena `[0, 4096)` whose cursor is at 64
holds a live 16-byte entry at 16 (header 16 at address 28); freeing it
leaves the cursor at 64, flips only that header, and the next placement
of the same layout lands at 64 ≠ 16. -/
theorem bump_dealloc_not_last_witness :
    ∃ st2,
      bumpDealloc 2 ⟨0, 4096, 64, writeMem (fun _ => 0) 28 16⟩ 16 ⟨10, 1⟩ =
        DeallocResult.arena st2 ∧
      st2.cursor = 64 ∧ st2.block = 0 ∧ st2.limit = 4096 ∧
      st2.mem ((16 : Int) + roundup_size (as_i32 (10 + 4)) - 4) =
        -roundup_size (as_i32 (10 + 4)) ∧
      (∀ a, a ≠ (16 : Int) + roundup_size (as_i32 (10 + 4)) - 4 →
        st2.mem a = writeMem (fun _ => 0) 28 16 a) ∧
      (∀ q, (bumpAlloc st2 ⟨10, 1⟩).2 = some q → 16 < q) :=
  bump_dealloc_not_last 2 ⟨0, 4096, 64, writeMem (fun _ => 0) 28 16⟩ 16
    ⟨10, 1⟩ (by decide) (by decide) (by decide) (by decide)

/-- C4: allocating X, Y, Z in order into a fresh arena (all placed, all
alignments within the 16-byte minimum, the three entry sizes — as the
code computes them, through the truncating `as i32` cast — positive and
fitting before the limit) and then deallocating Z, Y, X: after each
deallocation the cursor retreats exactly to the start of the just-freed
region, and after all three it equals the arena's block start. -/
theorem bump_lifo_reclaim (blk lim : Int) (m0 : Int → Int)
    (kx ky kz : Kind) (s1 s2 s3 : Int)
    (hax : kx.align ≤ MIN_ALIGN) (hay : ky.align ≤ MIN_ALIGN)
    (haz : kz.align ≤ MIN_ALIGN)
    (he1 : roundup_size (as_i32 (kx.size + 4)) = s1)
    (he2 : roundup_size (as_i32 (ky.size + 4)) = s2)
    (he3 : roundup_size (as_i32 (kz.size + 4)) = s3)
    (hp1 : 0 < s1) (hp2 : 0 < s2) (hp3 : 0 < s3)
    (hfit : blk + s1 + s2 + s3 < lim) :
    ∃ st1 st2 st3 : BumpState,
      bumpAlloc ⟨blk, lim, blk, m0⟩ kx = (st1, some blk) ∧
      bumpAlloc st1 ky = (st2, some (blk + s1)) ∧
      bumpAlloc st2 kz = (st3, some (blk + s1 + s2)) ∧
      ∃ st4,
        bumpDealloc 2 st3 (blk + s1 + s2) kz = DeallocResult.arena st4 ∧
        st4.cursor = blk + s1 + s2 ∧
        ∃ st5,
          bumpDealloc 2 st4 (blk + s1) ky = DeallocResult.arena st5 ∧
          st5.cursor = blk + s1 ∧
          ∃ st6,
            bumpDealloc 2 st5 blk kx = DeallocResult.arena st6 ∧
            st6.cursor = blk := by
  set m1 := writeMem m0 (blk + s1 - 4) s1 with hm1
  set m2 := writeMem m1 (blk + s1 + s2 - 4) s2 with hm2
  set m3 := writeMem m2 (blk + s1 + s2 + s3 - 4) s3 with hm3
  have h1 : bumpAlloc ⟨blk, lim, blk, m0⟩ kx =
      (⟨blk, lim, blk + s1, m1⟩, some blk) := by
    simp only [bumpAlloc, if_pos hax, he1]
    rw [if_pos (show blk < lim - s1 by omega)]
  have h2 : bumpAlloc ⟨blk, lim, blk + s1, m1⟩ ky =
      (⟨blk, lim, blk + s1 + s2, m2⟩, some (blk + s1)) := by
    simp only [bumpAlloc, if_pos hay, he2]
    rw [if_pos (show blk + s1 < lim - s2 by omega)]
  have h3 : bumpAlloc ⟨blk, lim, blk + s1 + s2, m2⟩ kz =
      (⟨blk, lim, blk + s1 + s2 + s3, m3⟩, some (blk + s1 + s2)) := by
    simp only [bumpAlloc, if_pos haz, he3]
    rw [if_pos (show blk + s1 + s2 < lim - s3 by omega)]
  have hm3a3 : m3 (blk + s1 + s2 + s3 - 4) = s3 := by
    rw [hm3]
    simp [writeMem]
  have hm3a2 : m3 (blk + s1 + s2 - 4) = s2 := by
    rw [hm3, hm2]
    unfold writeMem
    rw [if_neg (by omega), if_pos rfl]
  have hm3a1 : m3 (blk + s1 - 4) = s1 := by
    rw [hm3, hm2, hm1]
    unfold writeMem
    rw [if_neg (by omega), if_neg (by omega), if_pos rfl]
  have hd3 : bumpDealloc 2 ⟨blk, lim, blk + s1 + s2 + s3, m3⟩
      (blk + s1 + s2) kz =
      DeallocResult.arena ⟨blk, lim, blk + s1 + s2, m3⟩ := by
    simp only [bumpDealloc, if_pos haz, he3]
    rw [if_pos hm3a3,
      if_neg (show ¬ blk + s1 + s2 + s3 ≠ blk + s1 + s2 + s3 by simp)]
    have hw : walkBack m3 blk 2 (blk + s1 + s2) = some (blk + s1 + s2) := by
      unfold walkBack
      rw [if_neg (show ¬ blk + s1 + s2 = blk by omega)]
      simp only [hm3a2]
      rw [if_pos hp2]
    rw [hw]
  have hd2 : bumpDealloc 2 ⟨blk, lim, blk + s1 + s2, m3⟩ (blk + s1) ky =
      DeallocResult.arena ⟨blk, lim, blk + s1, m3⟩ := by
    simp only [bumpDealloc, if_pos hay, he2]
    rw [if_pos hm3a2,
      if_neg (show ¬ blk + s1 + s2 ≠ blk + s1 + s2 by simp)]
    have hw : walkBack m3 blk 2 (blk + s1) = some (blk + s1) := by
      unfold walkBack
      rw [if_neg (show ¬ blk + s1 = blk by omega)]
      simp only [hm3a1]
      rw [if_pos hp1]
    rw [hw]
  have hd1 : bumpDealloc 2 ⟨blk, lim, blk + s1, m3⟩ blk kx =
      DeallocResult.arena ⟨blk, lim, blk, m3⟩ := by
    simp only [bumpDealloc, if_pos hax, he1]
    rw [if_pos hm3a1,
      if_neg (show ¬ blk + s1 ≠ blk + s1 by simp)]
    have hw : walkBack m3 blk 2 blk = some blk := by
      unfold walkBack
      rw [if_pos rfl]
    rw [hw]
  exact ⟨_, _, _, h1, h2, h3, _, hd3, rfl, _, hd2, rfl, _, hd1, rfl⟩

/-- Witness for C4's theorem: a fresh 4096-byte arena at block 0 with
three requests of sizes 10, 20 and 5 (entries 16, 32 and 16 bytes). -/
theorem bump_lifo_reclaim_witness :
    ∃ st1 st2 st3 : BumpState,
      bumpAlloc ⟨0, 4096, 0, fun _ => 0⟩ ⟨10, 8⟩ = (st1, some 0) ∧
      bumpAlloc st1 ⟨20, 16⟩ = (st2, some (0 + 16)) ∧
      bumpAlloc st2 ⟨5, 1⟩ = (st3, some (0 + 16 + 32)) ∧
      ∃ st4,
        bumpDealloc 2 st3 ((0 : Int) + 16 + 32) ⟨5, 1⟩ =
          DeallocResult.arena st4 ∧
        st4.cursor = 0 + 16 + 32 ∧
        ∃ st5,
          bumpDealloc 2 st4 ((0 : Int) + 16) ⟨20, 16⟩ =
            DeallocResult.arena st5 ∧
          st5.cursor = 0 + 16 ∧
          ∃ st6,
            bumpDealloc 2 st5 0 ⟨10, 8⟩ = DeallocResult.arena st6 ∧
            st6.cursor = 0 :=
  bump_lifo_reclaim 0 4096 (fun _ => 0) ⟨10, 8⟩ ⟨20, 16⟩ ⟨5, 1⟩ 16 32 16
    (by decide) (by decide) (by decide) (by decide) (by decide) (by decide)
    (by decide) (by decide) (by decide) (by decide)

lemma two_pow_split {bits : Nat} (hb : 1 ≤ bits) :
    2 ^ bits = 2 * 2 ^ (bits - 1) := by
  obtain ⟨n, rfl⟩ : ∃ n, bits = n + 1 := ⟨bits - 1, by omega⟩
  simp [pow_succ, Nat.mul_comm]

/-- With element size a multiple of the element alignment (as holds for
every `Kind::new::<T>()`), the array layout carries no inter-element
padding. -/
lemma array_size_of_dvd {ek : Kind} (hea : 0 < ek.align)
    (hdvd : ek.align ∣ ek.size) (n : Nat) :
    (ek.array n).size = n * ek.size := by
  obtain ⟨c, hc⟩ := hdvd
  have he : ek.size + ek.align - 1 = (ek.align - 1) + ek.align * c := by
    omega
  simp only [Kind.array, Kind.pad_to]
  rw [he, Nat.add_mul_mod_self_left, Nat.mod_eq_of_lt (by omega)]
  have hz : (ek.align - 1) + ek.align * c - (ek.align - 1) - ek.size = 0 := by
    omega
  rw [hz, Nat.add_zero, Nat.mul_comm]

lemma rvinv_with_capacity {bits : Nat} {ek : Kind} {allocF : Kind → Bool}
    (hes : ek.size ≠ 0) (hea : 0 < ek.align) (hdvd : ek.align ∣ ek.size)
    (hallocF : ∀ k, allocF k = true → k.size ≤ isizeMax bits)
    {cap : Nat} {st : RVState} {b : Bool}
    (h : RawVec.with_capacity bits ek allocF cap = RVOut.ok st b) :
    RVInv bits ek st := by
  unfold RawVec.with_capacity at h
  split at h
  · cases h
  next alloc_size hmul =>
    obtain ⟨rfl, _⟩ := checkedMul_some hmul
    split at h
    · split at h
      next hzero =>
        injection h with h1 h2
        subst h1
        left
        refine ⟨rfl, ?_⟩
        rcases Nat.mul_eq_zero.mp hzero with h | h
        · exact h
        · exact absurd h hes
      next hzero =>
        split at h
        next hA =>
          injection h with h1 h2
          subst h1
          right
          refine ⟨rfl, ?_, hallocF _ hA⟩
          dsimp only
          rw [array_size_of_dvd hea hdvd]
        next hA => cases h
    · cases h

lemma rvinv_double {bits : Nat} {ek : Kind} {allocF : Kind → Bool}
    {reallocF : Kind → Nat → Bool}
    (hb : 1 ≤ bits) (hes : ek.size ≠ 0) (hea : 0 < ek.align)
    (hdvd : ek.align ∣ ek.size)
    (hallocF : ∀ k, allocF k = true → k.size ≤ isizeMax bits)
    (hreallocF : ∀ k n, reallocF k n = true → n ≤ isizeMax bits)
    {st st' : RVState} {b : Bool} (hInv : RVInv bits ek st)
    (h : RawVec.double bits ek allocF reallocF st = RVOut.ok st' b) :
    RVInv bits ek st' := by
  unfold RawVec.double at h
  rw [if_neg hes] at h
  by_cases h0 : st.cap = 0
  · rw [if_pos h0] at h
    simp only [] at h
    split at h
    · by_cases hA : allocF (ek.array 1) = true
      · rw [if_pos hA] at h
        injection h with h1 h2
        subst h1
        right
        refine ⟨rfl, ?_, hallocF _ hA⟩
        dsimp only
        rw [array_size_of_dvd hea hdvd]
      · rw [if_neg hA] at h
        cases h
    · by_cases hA : allocF (ek.array 4) = true
      · rw [if_pos hA] at h
        injection h with h1 h2
        subst h1
        right
        refine ⟨rfl, ?_, hallocF _ hA⟩
        dsimp only
        rw [array_size_of_dvd hea hdvd]
      · rw [if_neg hA] at h
        cases h
  · rw [if_neg h0] at h
    simp only [] at h
    obtain ⟨_, hsize, hle⟩ :
        st.tag = PtrTag.real ∧ st.cap * ek.size = st.lastSize ∧
          st.lastSize ≤ isizeMax bits := by
      rcases hInv with ⟨_, hc⟩ | hr
      · exact absurd hc h0
      · exact hr
    have hsplit := two_pow_split hb
    have hespos : 0 < ek.size := Nat.pos_of_ne_zero hes
    have hcaple : st.cap ≤ st.lastSize := by
      calc st.cap = st.cap * 1 := (Nat.mul_one _).symm
        _ ≤ st.cap * ek.size := Nat.mul_le_mul_left _ hespos
        _ = st.lastSize := hsize
    have hiso : isizeMax bits = 2 ^ (bits - 1) - 1 := rfl
    have hnc : 2 * st.cap < 2 ^ bits := by omega
    rw [Nat.mod_eq_of_lt hnc] at h
    have hnaseq : 2 * st.cap * ek.size = 2 * st.lastSize := by
      rw [Nat.mul_assoc, hsize]
    have hnas : 2 * st.cap * ek.size < 2 ^ bits := by omega
    rw [Nat.mod_eq_of_lt hnas] at h
    split at h
    · split at h
      next hR =>
        injection h with h1 h2
        subst h1
        right
        exact ⟨rfl, rfl, hreallocF _ _ hR⟩
      next hR => cases h
    · cases h

lemma rvinv_reserve {bits : Nat} {ek : Kind} {allocF : Kind → Bool}
    {reallocF : Kind → Nat → Bool}
    (hea : 0 < ek.align) (hdvd : ek.align ∣ ek.size)
    (hallocF : ∀ k, allocF k = true → k.size ≤ isizeMax bits)
    (hreallocF : ∀ k n, reallocF k n = true → n ≤ isizeMax bits)
    {st st' : RVState} {u e : Nat} {b : Bool} (hInv : RVInv bits ek st)
    (h : RawVec.reserve bits ek allocF reallocF st u e = RVOut.ok st' b) :
    RVInv bits ek st' := by
  unfold RawVec.reserve at h
  split at h
  · injection h with h1 h2
    subst h1
    exact hInv
  · split at h
    · cases h
    next c hc =>
      split at h
      · cases h
      next nc hnc =>
        split at h
        · cases h
        next nas hnas =>
          obtain ⟨rfl, _⟩ := checkedMul_some hnas
          split at h
          · split at h
            · split at h
              next hA =>
                injection h with h1 h2
                subst h1
                right
                refine ⟨rfl, ?_, hallocF _ hA⟩
                dsimp only
                rw [array_size_of_dvd hea hdvd]
              next hA => cases h
            · split at h
              next hR =>
                injection h with h1 h2
                subst h1
                right
                exact ⟨rfl, rfl, hreallocF _ _ hR⟩
              next hR => cases h
          · cases h

lemma rvinv_reserve_exact {bits : Nat} {ek : Kind} {allocF : Kind → Bool}
    {reallocF : Kind → Nat → Bool}
    (hea : 0 < ek.align) (hdvd : ek.align ∣ ek.size)
    (hallocF : ∀ k, allocF k = true → k.size ≤ isizeMax bits)
    (hreallocF : ∀ k n, reallocF k n = true → n ≤ isizeMax bits)
    {st st' : RVState} {u e : Nat} {b : Bool} (hInv : RVInv bits ek st)
    (h : RawVec.reserve_exact bits ek allocF reallocF st u e =
      RVOut.ok st' b) :
    RVInv bits ek st' := by
  unfold RawVec.reserve_exact at h
  split at h
  · injection h with h1 h2
    subst h1
    exact hInv
  · split at h
    · cases h
    next nc hnc =>
      split at h
      · cases h
      next nas hnas =>
        obtain ⟨rfl, _⟩ := checkedMul_some hnas
        split at h
        · split at h
          · split at h
            next hA =>
              injection h with h1 h2
              subst h1
              right
              refine ⟨rfl, ?_, hallocF _ hA⟩
              dsimp only
              rw [array_size_of_dvd hea hdvd]
            next hA => cases h
          · split at h
            next hR =>
              injection h with h1 h2
              subst h1
              right
              exact ⟨rfl, rfl, hreallocF _ _ hR⟩
            next hR => cases h
        · cases h

lemma rvinv_shrink {bits : Nat} {ek : Kind} {reallocF : Kind → Nat → Bool}
    (hb : 1 ≤ bits) (hes : ek.size ≠ 0)
    (hreallocF : ∀ k n, reallocF k n = true → n ≤ isizeMax bits)
    {st st' : RVState} {amount : Nat} {b : Bool} (hInv : RVInv bits ek st)
    (h : RawVec.shrink_to_fit bits ek reallocF st amount = RVOut.ok st' b) :
    RVInv bits ek st' := by
  unfold RawVec.shrink_to_fit at h
  rw [if_neg hes] at h
  split at h
  · cases h
  next hca =>
    split at h
    next hz =>
      injection h with h1 h2
      subst h1
      left
      exact ⟨rfl, rfl⟩
    next hz =>
      split at h
      next hne =>
        simp only [] at h
        obtain ⟨_, hsize, hle⟩ :
            st.tag = PtrTag.real ∧ st.cap * ek.size = st.lastSize ∧
              st.lastSize ≤ isizeMax bits := by
          rcases hInv with ⟨_, hc⟩ | hr
          · exact absurd (by omega : st.cap < amount) hca
          · exact hr
        have hmle : amount * ek.size ≤ st.cap * ek.size :=
          Nat.mul_le_mul_right _ (by omega)
        have hnw : amount * ek.size < 2 ^ bits := by
          have hfe : amount * ek.size ≤ st.lastSize := by
            calc amount * ek.size ≤ st.cap * ek.size := hmle
              _ = st.lastSize := hsize
          have hlt : st.lastSize < 2 ^ bits := by
            have h1 : st.lastSize ≤ 2 ^ (bits - 1) - 1 := hle
            have h2 : (2 : Nat) ^ bits = 2 * 2 ^ (bits - 1) :=
              two_pow_split hb
            have h3 : 0 < 2 ^ (bits - 1) :=
              Nat.pos_pow_of_pos _ (by omega)
            omega
          omega
        rw [Nat.mod_eq_of_lt hnw] at h
        split at h
        next hR =>
          injection h with h1 h2
          subst h1
          right
          exact ⟨rfl, rfl, hreallocF _ _ hR⟩
        next hR => cases h
      next hne =>
        injection h with h1 h2
        subst h1
        exact hInv

/-- C8 counterexample: with 1-byte elements the capacity
`POST_DROP_USIZE` (the drop-flag sentinel `0x1d1d1d1d1d1d1d1d`, about
2.1e18, below `isize::MAX`) is reachable through `with_capacity` under
allocator oracles that satisfy exactly the requests of at most
`isize::MAX` bytes, yet teardown skips the deallocation there although
the element size and the capacity are both non-zero. -/
theorem drop_skips_post_drop_sentinel :
    RVReach 64 ⟨1, 1⟩ (fun k => decide (k.size ≤ isizeMax 64))
      (fun _ n => decide (n ≤ isizeMax 64))
      ⟨POST_DROP_USIZE 64, PtrTag.real, POST_DROP_USIZE 64⟩ ∧
    (Kind.mk 1 1).size ≠ 0 ∧ POST_DROP_USIZE 64 ≠ 0 ∧
    RawVec.dropDealloc 64 ⟨1, 1⟩
      ⟨POST_DROP_USIZE 64, PtrTag.real, POST_DROP_USIZE 64⟩ = none := by
  refine ⟨RVReach.init (POST_DROP_USIZE 64) _ true (by decide),
    by decide, by decide, by decide⟩

/-- C8 (amended): every growable-buffer state reachable through
`with_capacity`, `double`, `reserve`, `reserve_exact` and
`shrink_to_fit` (for a non-zero-sized element kind whose size is a
multiple of its alignment, under allocator oracles that only satisfy
requests of at most `isize::MAX` bytes) satisfies the buffer invariant
`RVInv`: `cap * elem_size` equals the byte size of the layout most
recently used to allocate or reallocate the stored address, and the
address is either the designated empty sentinel (capacity 0) or a real
allocation.  Teardown issues exactly one deallocation, using the layout
`ek.array cap` implied by the current capacity, and is skipped when the
capacity is zero or equals the `POST_DROP_USIZE` drop-flag sentinel —
or, for any state of any zero-sized element kind, always. -/
theorem rawvec_reachable_invariant (bits : Nat) (ek : Kind)
    (allocF : Kind → Bool) (reallocF : Kind → Nat → Bool)
    (hb : 1 ≤ bits) (hes : ek.size ≠ 0) (hea : 0 < ek.align)
    (hdvd : ek.align ∣ ek.size)
    (hallocF : ∀ k, allocF k = true → k.size ≤ isizeMax bits)
    (hreallocF : ∀ k n, reallocF k n = true → n ≤ isizeMax bits)
    (st : RVState) (hreach : RVReach bits ek allocF reallocF st) :
    RVInv bits ek st ∧
    RawVec.dropDealloc bits ek st =
      (if st.cap = 0 ∨ st.cap = POST_DROP_USIZE bits then none
       else some (ek.array st.cap)) ∧
    (∀ (k2 : Kind) (st2 : RVState), k2.size = 0 →
      RawVec.dropDealloc bits k2 st2 = none) := by
  have hInv : RVInv bits ek st := by
    induction hreach with
    | init cap st0 b h => exact rvinv_with_capacity hes hea hdvd hallocF h
    | step_double st0 st1 b hr hop ih =>
        exact rvinv_double hb hes hea hdvd hallocF hreallocF ih hop
    | step_reserve st0 st1 u e b hr hop ih =>
        exact rvinv_reserve hea hdvd hallocF hreallocF ih hop
    | step_reserve_exact st0 st1 u e b hr hop ih =>
        exact rvinv_reserve_exact hea hdvd hallocF hreallocF ih hop
    | step_shrink st0 st1 amount b hr hop ih =>
        exact rvinv_shrink hb hes hreallocF ih hop
  refine ⟨hInv, ?_, ?_⟩
  · by_cases h0 : st.cap = 0
    · simp [RawVec.dropDealloc, h0]
    · by_cases hpd : st.cap = POST_DROP_USIZE bits
      · simp [RawVec.dropDealloc, h0, hpd]
      · simp [RawVec.dropDealloc, hes, h0, hpd]
  · intro k2 st2 hz
    simp [RawVec.dropDealloc, hz]

/-- Witness for C8's amended theorem: word 64, elements of kind
`⟨4, 4⟩`, oracles accepting exactly the requests of at most
`isize::MAX` bytes, and the state reached by `with_capacity(2)`. -/
theorem rawvec_reachable_invariant_witness :
    RVInv 64 ⟨4, 4⟩ ⟨2, PtrTag.real, 8⟩ ∧
    RawVec.dropDealloc 64 ⟨4, 4⟩ ⟨2, PtrTag.real, 8⟩ =
      (if (RVState.mk 2 PtrTag.real 8).cap = 0 ∨
          (RVState.mk 2 PtrTag.real 8).cap = POST_DROP_USIZE 64 then none
       else some (Kind.array ⟨4, 4⟩ (RVState.mk 2 PtrTag.real 8).cap)) ∧
    (∀ (k2 : Kind) (st2 : RVState), k2.size = 0 →
      RawVec.dropDealloc 64 k2 st2 = none) :=
  rawvec_reachable_invariant 64 ⟨4, 4⟩
    (fun k => decide (k.size ≤ isizeMax 64))
    (fun _ n => decide (n ≤ isizeMax 64))
    (by omega) (by decide) (by decide) (by decide)
    (fun k h => of_decide_eq_true h) (fun k n h => of_decide_eq_true h)
    ⟨2, PtrTag.real, 8⟩
    (RVReach.init 2 ⟨2, PtrTag.real, 8⟩ true (by decide))
